import Mathlib

/-!
Verification of the clustering / sampling / validation core of the
AI-Workflow-Analyst repository (src/clustering.py, src/validation.py,
src/evaluate.py).

Numeric model: machine floats are modelled by exact rationals (`ℚ`); a raw
input cell is a `FloatVal`, which is either a finite rational or one of the
non-finite IEEE values (NaN, +inf, -inf), so that input validation over
non-finite data is expressible.  Fallible Python code (exceptions such as
`ZeroDivisionError` / `IndexError`) is modelled with `Option`/`Except`.
-/

/-- Dot product of two rational vectors (`numpy` truncating zip semantics;
the pipeline only uses it on equal-length rows). -/
def dotQ (u v : List ℚ) : ℚ := (List.zipWith (· * ·) u v).sum

/-- Squared Euclidean norm. -/
def normSq (u : List ℚ) : ℚ := dotQ u u

/-- Elementwise sum of two vectors. -/
def addVec (u v : List ℚ) : List ℚ := List.zipWith (· + ·) u v

/-- Sum of a list of vectors (empty sum is the empty vector). -/
def sumVecs : List (List ℚ) → List ℚ
  | [] => []
  | [v] => v
  | v :: w :: vs => addVec v (sumVecs (w :: vs))

/-- `np.mean(vs, axis=0)`: the arithmetic mean of the rows
(src/clustering.py line 45). -/
def centroid (vs : List (List ℚ)) : List ℚ :=
  (sumVecs vs).map (fun x => x / (vs.length : ℚ))

/-- Squared Euclidean distance between two vectors. -/
def sqDist (u v : List ℚ) : ℚ := ((List.zipWith (fun a b => (a - b) ^ 2) u v)).sum

/-- A raw floating-point input cell: either a finite value (an exact
rational) or one of the non-finite IEEE values. -/
inductive FloatVal where
  | fin (q : ℚ)
  | nan
  | posInf
  | negInf
deriving DecidableEq

/-- Finiteness test for a raw input cell. -/
def FloatVal.isFinite : FloatVal → Bool
  | .fin _ => true
  | _ => false

/-- The rational value of a finite cell (non-finite cells are rejected by
validation before this is ever used). -/
def FloatVal.toQ : FloatVal → ℚ
  | .fin q => q
  | _ => 0

/-- The ways the clustering engine rejects its input matrix. -/
inductive ValidationError where
  | emptyInput
  | ragged
  | nonFinite
deriving DecidableEq

/-- Modelled from the spec: the input contract of the clustering engine
(spec §4.1 Failure / §7), whose enforcement lives in the external
`sklearn` estimator called by `perform_clustering` and not in src/:
"rejects (fails with `ValidationError`) when vectors are empty, ragged, or
contain non-finite values."  A valid matrix is converted to its exact
rational contents. -/
def validateMatrix (M : List (List FloatVal)) : Except ValidationError (List (List ℚ)) :=
  if M.isEmpty then .error .emptyInput
  else if !(M.all (fun r => r.length = (M.headD []).length)) then .error .ragged
  else if M.any (fun r => r.any (fun x => !x.isFinite)) then .error .nonFinite
  else .ok (M.map (fun r => r.map FloatVal.toQ))

/-- Modelled from the spec: the Ward merge cost between two groups of
member indices (spec §4.1 / glossary), as implemented by the external
`sklearn` agglomerator.  The value is the squared Ward linkage distance
`2·|a|·|b|/(|a|+|b|) · ‖centroid a − centroid b‖²`; working with squares
keeps everything rational, and comparisons against the squared threshold
are order-equivalent to comparing linkage distances against the
threshold. -/
def wardCost (E : List (List ℚ)) (a b : List ℕ) : ℚ :=
  let ca := centroid (a.map (fun i => E.getD i []))
  let cb := centroid (b.map (fun i => E.getD i []))
  (2 * (a.length : ℚ) * (b.length : ℚ) / ((a.length : ℚ) + (b.length : ℚ))) * sqDist ca cb

/-- All position pairs `(i, j)` with `i < j < m`, in lexicographic order.
The enumeration order realises the spec's deterministic tie-break
("ties in merge cost are broken by lowest combined original index pair",
spec §4.1): the first minimum found wins. -/
def pairCandidates (m : ℕ) : List (ℕ × ℕ) :=
  (List.range m).flatMap (fun i =>
    (List.range m).filterMap (fun j => if i < j then some (i, j) else none))

/-- Candidate merges of the current cluster list, each with its Ward cost. -/
def candList (E : List (List ℚ)) (s : List (List ℕ)) : List ((ℕ × ℕ) × ℚ) :=
  (pairCandidates s.length).map
    (fun ij => (ij, wardCost E (s.getD ij.1 []) (s.getD ij.2 [])))

/-- First candidate of minimal cost (strict comparison keeps the earliest,
i.e. the lowest index pair, on ties). -/
def selectMin : List ((ℕ × ℕ) × ℚ) → Option ((ℕ × ℕ) × ℚ)
  | [] => none
  | x :: xs => some (xs.foldl (fun best y => if y.2 < best.2 then y else best) x)

/-- The cheapest available merge of the current cluster list, if any. -/
def stepMin (E : List (List ℚ)) (s : List (List ℕ)) : Option ((ℕ × ℕ) × ℚ) :=
  selectMin (candList E s)

/-- Merge the clusters at positions `i < j`: the merged group replaces
position `i` (concatenating the two member lists) and position `j` is
removed. -/
def mergeAt (s : List (List ℕ)) (i j : ℕ) : List (List ℕ) :=
  s.take i ++ [s.getD i [] ++ s.getD j []]
    ++ ((s.drop (i + 1)).take (j - i - 1)) ++ s.drop (j + 1)

/-- Modelled from the spec: bottom-up Ward agglomeration (spec §4.1),
the algorithm of the external `sklearn` estimator invoked at
src/clustering.py lines 13–20.  Repeatedly performs the cheapest merge,
stopping as soon as the next cheapest merge would exceed the threshold
(`tsq` is the squared threshold).  `fuel` bounds the number of merges;
callers pass the number of vectors, which more than suffices. -/
def agglomRun (E : List (List ℚ)) : ℕ → ℚ → List (List ℕ) → List (List ℕ)
  | 0, _, s => s
  | fuel + 1, tsq, s =>
    match stepMin E s with
    | none => s
    | some (ij, c) =>
      if c ≤ tsq then agglomRun E fuel tsq (mergeAt s ij.1 ij.2) else s

/-- Modelled from the spec: full agglomerative clustering of the rows of
`E` at distance threshold `t` — start from singletons, merge while the
linkage distance stays within `t` (squared on both sides to stay
rational). -/
def agglomerate (E : List (List ℚ)) (t : ℚ) : List (List ℕ) :=
  agglomRun E E.length (t ^ 2) ((List.range E.length).map (fun i => [i]))

/-- Position of the first group containing index `i` (the group list's
length if none does).  Used to read cluster labels off the final groups:
label values are assignment artifacts, exactly as in the source. -/
def idxOfGroup (i : ℕ) : List (List ℕ) → ℕ
  | [] => 0
  | g :: gs => if g.contains i then 0 else idxOfGroup i gs + 1

/-- The per-message label vector of a final grouping, one label per message
index (the shape `fit_predict` returns at src/clustering.py line 20). -/
def labelsOfGroups (groups : List (List ℕ)) (n : ℕ) : List ℤ :=
  (List.range n).map (fun i => (idxOfGroup i groups : ℤ))

/-- One step of the dict-building loop of src/clustering.py lines 22–26:
append index `idx` to the entry of `label`, creating the entry at the end
if absent (Python dict insertion order). -/
def insertLabel : List (ℤ × List ℕ) → ℤ → ℕ → List (ℤ × List ℕ)
  | [], l, idx => [(l, [idx])]
  | (k, v) :: rest, l, idx =>
    if k = l then (k, v ++ [idx]) :: rest else (k, v) :: insertLabel rest l idx

/-- The dict-building loop of src/clustering.py lines 22–26, walking the
label vector with the running message index. -/
def groupByLabelsAux : List ℤ → ℕ → List (ℤ × List ℕ) → List (ℤ × List ℕ)
  | [], _, acc => acc
  | l :: ls, idx, acc => groupByLabelsAux ls (idx + 1) (insertLabel acc l idx)

/-- `clusters` as built by src/clustering.py lines 22–26 from the label
vector: an insertion-ordered map from cluster id to member indices. -/
def groupByLabels (labels : List ℤ) : List (ℤ × List ℕ) :=
  groupByLabelsAux labels 0 []

/-- src/clustering.py `perform_clustering`: validate the matrix, run the
agglomeration (external `sklearn` call, modelled from the spec), then
group message indices by label exactly as lines 22–26 do. -/
def perform_clustering (M : List (List FloatVal)) (t : ℚ) :
    Except ValidationError (List (ℤ × List ℕ)) := do
  let E ← validateMatrix M
  let groups := agglomerate E t
  pure (groupByLabels (labelsOfGroups groups E.length))

/-- Python `a / b` on numbers: raises `ZeroDivisionError` when `b = 0`,
modelled as `none`. -/
def pyDiv (a b : ℚ) : Option ℚ := if b = 0 then none else some (a / b)

/-- Round a rational to the nearest integer, halves to even — the rounding
Python's built-in `round` uses. -/
def roundHalfEven (q : ℚ) : ℤ :=
  let f := ⌊q⌋
  let r := q - (f : ℚ)
  if r < 1 / 2 then f else if 1 / 2 < r then f + 1 else if f % 2 = 0 then f else f + 1

/-- Python `round(x, 2)` on the exact rational value. -/
def pyRound2 (q : ℚ) : ℚ := ((roundHalfEven (q * 100) : ℚ)) / 100

/-- A Python-style fallible `map` (the first raised exception aborts),
used to model loops that index into lists. -/
def mapOpt (f : α → Option β) : List α → Option (List β)
  | [] => some []
  | x :: xs => do
    let y ← f x
    let ys ← mapOpt f xs
    pure (y :: ys)

/-- Comparison key for cosine distance to the centroid.  With
`d = u·c` and `n = ‖u‖²·‖c‖²`, the cosine similarity is `d / √n`, and the
map `x ↦ x·|x|` is strictly monotone, so `d·|d| / n` is a rational whose
order is exactly the cosine-similarity order (cosine distance =
1 − similarity, so ascending distance = descending key).  Zero vectors get
similarity 0, as in `sklearn.metrics.pairwise.cosine_distances`. -/
def cosKey (u c : List ℚ) : ℚ :=
  let d := dotQ u c
  let n := normSq u * normSq c
  if n = 0 then 0 else d * |d| / n

/-- Cosine keys of a cluster's member vectors against the cluster
centroid, indexed by local member position. -/
def clusterKeys (E : List (List ℚ)) (idxs : List ℕ) : List ℚ :=
  let vs := idxs.map (fun i => E.getD i [])
  vs.map (fun v => cosKey v (centroid vs))

/-- Ordering used to model `distances.argsort()` (src/clustering.py
line 51): local index `i` precedes `j` when its cosine distance is
smaller (key larger), ties broken by index order. -/
def argLE (keys : List ℚ) (i j : ℕ) : Bool :=
  decide (keys.getD j 0 < keys.getD i 0) ||
    (decide (keys.getD i 0 = keys.getD j 0) && decide (i ≤ j))

/-- Insert an element into a sorted list, after every element it does not
strictly precede (stable insertion sort step). -/
def insertBy (le : α → α → Bool) (x : α) : List α → List α
  | [] => [x]
  | y :: ys => if le x y then x :: y :: ys else y :: insertBy le x ys

/-- Stable insertion sort by a boolean relation. -/
def sortBy (le : α → α → Bool) (l : List α) : List α := l.foldr (insertBy le) []

/-- The local member positions of a cluster sorted by ascending cosine
distance to the centroid: the model of `distances.argsort()`. -/
def sortedLocal (E : List (List ℚ)) (idxs : List ℕ) : List ℕ :=
  sortBy (argLE (clusterKeys E idxs)) (List.range idxs.length)

/-- The summary record built per cluster at src/clustering.py
lines 57–62. -/
structure ClusterSummary where
  cluster_id : ℤ
  size : ℕ
  percentage : ℚ
  representative_samples : List String
deriving DecidableEq

/-- The loop body of src/clustering.py `get_representative_samples`
(lines 40–62) for one `(label, indices)` entry: centroid, cosine
distances, `argsort()[:samples_per_cluster]`, text lookup by global
index (`df.iloc`, `none` on an out-of-range index), and the percentage
`round(size / len(df) * 100, 2)` (`none` when `len(df) = 0`). -/
def summarizeCluster (E : List (List ℚ)) (texts : List String) (k : ℕ) :
    ℤ × List ℕ → Option ClusterSummary
  | (cid, idxs) => do
    let chosenLocal := (sortedLocal E idxs).take k
    let chosenGlobal := chosenLocal.map (fun li => idxs.getD li 0)
    let samples ← mapOpt (fun i => texts.get? i) chosenGlobal
    let frac ← pyDiv (idxs.length : ℚ) (texts.length : ℚ)
    pure { cluster_id := cid, size := idxs.length,
           percentage := pyRound2 (frac * 100), representative_samples := samples }

/-- `list.sort(key=size, reverse=True)` at src/clustering.py line 65:
stable descending sort by cluster size. -/
def sizeGE (a b : ClusterSummary) : Bool := decide (b.size ≤ a.size)

/-- src/clustering.py `get_representative_samples`: summarize every
cluster in dict order, then sort the summaries by descending size
(Python's stable sort: equal sizes keep dict insertion order). -/
def get_representative_samples (clusters : List (ℤ × List ℕ))
    (E : List (List ℚ)) (texts : List String) (k : ℕ) :
    Option (List ClusterSummary) := do
  let summaries ← mapOpt (summarizeCluster E texts k) clusters
  pure (sortBy sizeGE summaries)

/-- The coverage computation of src/evaluate.py lines 48–49:
`sum(sizes) / total_messages * 100`, raising (`none`) when
`total_messages = 0`. -/
def coverageOf (sizes : List ℕ) (total : ℕ) : Option ℚ :=
  (pyDiv ((sizes.sum : ℕ) : ℚ) ((total : ℕ) : ℚ)).map (fun x => x * 100)

/-- `df_final.iloc[indices]['is_injected']` for one cluster
(src/validation.py lines 75–78): look up the injection flag of every
member, `none` on an out-of-range index (`IndexError`). -/
def injFlagsOf (inj : List Bool) (idxs : List ℕ) : Option (List Bool) :=
  mapOpt (fun i => inj.get? i) idxs

/-- Number of injected members of a cluster (total version, used to state
properties; agrees with the flag-summing loop on in-range indices). -/
def injCount (inj : List Bool) (idxs : List ℕ) : ℕ :=
  idxs.countP (fun i => inj.getD i false)

/-- The per-cluster recall of the injection test,
`(#injected members) / K` (src/validation.py line 83). -/
def recallOf (inj : List Bool) (K : ℕ) (p : ℤ × List ℕ) : ℚ :=
  (injCount inj p.2 : ℚ) / (K : ℚ)

/-- The per-cluster precision of the injection test,
`(#injected members) / cluster_size` (src/validation.py line 86). -/
def precOf (inj : List Bool) (p : ℤ × List ℕ) : ℚ :=
  (injCount inj p.2 : ℚ) / (p.2.length : ℚ)

/-- Whether a cluster passes the `recall > 0.5` bar of
src/validation.py line 88. -/
def qualifies (inj : List Bool) (K : ℕ) (p : ℤ × List ℕ) : Bool :=
  decide ((1 : ℚ) / 2 < recallOf inj K p)

/-- The analysis loop of src/validation.py lines 73–96: walk the clusters
in dict order keeping `(best_cluster_id, best_recall, best_precision)`,
overwriting it whenever a cluster's recall exceeds 0.5.  Division by a
zero `K` or an empty cluster, or an out-of-range member index, raises
(`none`). -/
def analyzeClusters (inj : List Bool) (K : ℕ) :
    List (ℤ × List ℕ) → ℤ × ℚ × ℚ → Option (ℤ × ℚ × ℚ)
  | [], best => some best
  | (cid, idxs) :: rest, best => do
    let flags ← injFlagsOf inj idxs
    let cnt := flags.countP (fun b => b)
    let rcl ← pyDiv (cnt : ℚ) (K : ℚ)
    let prc ← pyDiv (cnt : ℚ) (idxs.length : ℚ)
    analyzeClusters inj K rest
      (if (1 : ℚ) / 2 < rcl then (cid, rcl, prc) else best)

/-- The analysis core of src/validation.py `run_injection_test`
(lines 69–96): the initial best is `(-1, 0, 0)`; a final id of `-1`
means the failure verdict of lines 103–117. -/
def run_injection_test (inj : List Bool) (K : ℕ)
    (clusters : List (ℤ × List ℕ)) : Option (ℤ × ℚ × ℚ) :=
  analyzeClusters inj K clusters (-1, 0, 0)

/-- Last element of a list, `none` when empty (helper for describing the
"last qualifier wins" behaviour of the analysis loop). -/
def lastQ : List α → Option α
  | [] => none
  | [x] => some x
  | _ :: y :: ys => lastQ (y :: ys)

/-- The candidate selection in the words of the spec (§4.4): among the
clusters with recall above 0.5, pick the one with the highest recall and
report its id, recall and precision; `none` when no cluster qualifies.
Stated for comparison with the scanning loop the source implements. -/
def specSelect (inj : List Bool) (K : ℕ) (clusters : List (ℤ × List ℕ)) :
    Option (ℤ × ℚ × ℚ) :=
  match clusters.filter (qualifies inj K) with
  | [] => none
  | q :: qs =>
    let best := qs.foldl
      (fun b p => if recallOf inj K b < recallOf inj K p then p else b) q
    some (best.1, recallOf inj K best, precOf inj best)

/-- Invariant of the agglomeration state on `n` messages: the member
lists are nonempty and together contain every message index below `n`
exactly once. -/
def ValidGroups (n : ℕ) (s : List (List ℕ)) : Prop :=
  (∀ x, s.flatten.count x = if x < n then 1 else 0) ∧ [] ∉ s

/-! ## Partition law of the label-grouping loop -/

theorem count_join_insertLabel (acc : List (ℤ × List ℕ)) (l : ℤ) (j x : ℕ) :
    ((insertLabel acc l j).map Prod.snd).flatten.count x
      = (acc.map Prod.snd).flatten.count x + (if x = j then 1 else 0) := by
  induction acc with
  | nil =>
    simp only [insertLabel, List.map_cons, List.map_nil, List.flatten_cons,
      List.flatten_nil, List.append_nil, List.count_cons, List.count_nil, beq_iff_eq]
    split_ifs <;> omega
  | cons p rest ih =>
    obtain ⟨k, v⟩ := p
    by_cases hk : k = l
    · simp only [insertLabel, hk, if_pos, List.map_cons, List.flatten_cons,
        List.count_append, List.count_cons, List.count_nil, beq_iff_eq]
      split_ifs <;> omega
    · simp only [insertLabel, hk, if_neg, not_false_iff, List.map_cons,
        List.flatten_cons, List.count_append, ih]
      omega

theorem count_join_groupByLabelsAux (ls : List ℤ) (start : ℕ)
    (acc : List (ℤ × List ℕ)) (x : ℕ) :
    ((groupByLabelsAux ls start acc).map Prod.snd).flatten.count x
      = (acc.map Prod.snd).flatten.count x
        + (if start ≤ x ∧ x < start + ls.length then 1 else 0) := by
  induction ls generalizing start acc with
  | nil =>
    simp only [groupByLabelsAux, List.length_nil]
    split_ifs <;> omega
  | cons l ls ih =>
    simp only [groupByLabelsAux, List.length_cons]
    rw [ih, count_join_insertLabel]
    split_ifs <;> omega

theorem count_join_groupByLabels (labels : List ℤ) (x : ℕ) :
    ((groupByLabels labels).map Prod.snd).flatten.count x
      = if x < labels.length then 1 else 0 := by
  rw [groupByLabels, count_join_groupByLabelsAux]
  simp

theorem validateMatrix_ok {M : List (List FloatVal)} {E : List (List ℚ)}
    (h : validateMatrix M = .ok E) : E = M.map (fun r => r.map FloatVal.toQ) := by
  unfold validateMatrix at h
  split_ifs at h
  all_goals simp_all

theorem perform_clustering_ok {M : List (List FloatVal)} {t : ℚ}
    {r : List (ℤ × List ℕ)} (h : perform_clustering M t = .ok r) :
    ∃ E, validateMatrix M = .ok E ∧ E.length = M.length ∧
      r = groupByLabels (labelsOfGroups (agglomerate E t) E.length) := by
  unfold perform_clustering at h
  cases hv : validateMatrix M with
  | error e => rw [hv] at h; exact absurd h (by simp [Except.bind])
  | ok E =>
    rw [hv] at h
    have h2 : Except.ok (groupByLabels (labelsOfGroups (agglomerate E t) E.length))
        = Except.ok r := h
    exact ⟨E, rfl, by rw [validateMatrix_ok hv]; simp, (Except.ok.inj h2).symm⟩

/-- C1: for every matrix accepted by `perform_clustering`, the returned
mapping from cluster id to member-index lists is a partition of
`{0, …, n-1}`: every index below `n` occurs in exactly one member list
(count 1) and no other index occurs at all (count 0). -/
theorem C1_partition_law (M : List (List FloatVal)) (t : ℚ)
    (r : List (ℤ × List ℕ)) (h : perform_clustering M t = .ok r) (x : ℕ) :
    (r.map Prod.snd).flatten.count x = if x < M.length then 1 else 0 := by
  obtain ⟨E, hv, hlen, rfl⟩ := perform_clustering_ok h
  rw [count_join_groupByLabels]
  simp [labelsOfGroups, hlen]

/-- Witness for C1 at a concrete two-vector input. -/
theorem C1_partition_law_witness :
    perform_clustering [[FloatVal.fin 1], [FloatVal.fin 0]] 10 = .ok [(0, [0, 1])] ∧
    ([((0 : ℤ), [0, 1])].map Prod.snd).flatten.count 0 = if 0 < 2 then 1 else 0 :=
  ⟨by with_unfolding_all rfl,
   C1_partition_law [[FloatVal.fin 1], [FloatVal.fin 0]] 10 [(0, [0, 1])]
     (by with_unfolding_all rfl) 0⟩

/-! ## Input validation and edge cases -/

/-- C5: an empty, ragged, or non-finite matrix makes the clustering
operation fail with a `ValidationError` (the validator runs before the
agglomeration in `perform_clustering`, so clustering never proceeds on
such input). -/
theorem C5_invalid_input_rejected (M : List (List FloatVal)) (t : ℚ)
    (h : M = [] ∨ (∃ r ∈ M, r.length ≠ (M.headD []).length) ∨
      (∃ r ∈ M, ∃ x ∈ r, x.isFinite = false)) :
    ∃ e, perform_clustering M t = .error e := by
  by_cases h1 : M.isEmpty
  · exact ⟨.emptyInput, by unfold perform_clustering validateMatrix; rw [if_pos h1]; rfl⟩
  · by_cases h2 : (!(M.all fun r => r.length = (M.headD []).length)) = true
    · exact ⟨.ragged, by
        unfold perform_clustering validateMatrix; rw [if_neg h1, if_pos h2]; rfl⟩
    · have h3 : (M.any fun r => r.any fun x => !x.isFinite) = true := by
        rcases h with hM | hrag | hfin
        · exact absurd (by rw [hM]; rfl : M.isEmpty = true) h1
        · exfalso
          have h2x : (M.all fun r => r.length = (M.headD []).length) = true := by
            revert h2
            cases hb : (M.all fun r => r.length = (M.headD []).length) <;> simp
          obtain ⟨r, hr, hne⟩ := hrag
          rw [List.all_eq_true] at h2x
          exact hne (by simpa using h2x r hr)
        · obtain ⟨r, hr, x, hx, hf⟩ := hfin
          simp only [List.any_eq_true]
          exact ⟨r, hr, x, hx, by simp [hf]⟩
      exact ⟨.nonFinite, by
        unfold perform_clustering validateMatrix; rw [if_neg h1, if_neg h2, if_pos h3]; rfl⟩

/-- Witness for C5 at a concrete ragged matrix. -/
theorem C5_invalid_input_rejected_witness :
    ([[FloatVal.fin 1], []] = ([] : List (List FloatVal)) ∨
      (∃ r ∈ [[FloatVal.fin 1], []], r.length ≠ ([[FloatVal.fin 1], []].headD []).length) ∨
      (∃ r ∈ [[FloatVal.fin 1], []], ∃ x ∈ r, FloatVal.isFinite x = false)) ∧
    ∃ e, perform_clustering [[FloatVal.fin 1], []] 1 = .error e :=
  ⟨by decide, C5_invalid_input_rejected [[FloatVal.fin 1], []] 1 (by decide)⟩

/-- C6 counterexample: on an empty corpus the code does not return an
empty partition — the validator rejects with `emptyInput` — and the
coverage computation of src/evaluate.py does not guard `n = 0`: it
raises (`none`). -/
theorem C6_empty_corpus_cex :
    perform_clustering [] 1 = .error .emptyInput ∧ coverageOf [] 0 = none :=
  ⟨by with_unfolding_all rfl, by with_unfolding_all rfl⟩

/-- C6 amended: an empty corpus is rejected by clustering with a
`ValidationError` (per the spec's own failure contract) rather than
producing an empty partition; the per-cluster percentage loop performs no
division when there are no clusters (so it cannot raise there), but the
coverage computation performs an unguarded division and raises on
`total = 0`. -/
theorem C6_empty_corpus_amended :
    (∀ t : ℚ, perform_clustering [] t = .error .emptyInput) ∧
    (∀ (E : List (List ℚ)) (texts : List String) (k : ℕ),
        get_representative_samples [] E texts k = some []) ∧
    coverageOf [] 0 = none :=
  ⟨fun _ => rfl, fun _ _ _ => rfl, by with_unfolding_all rfl⟩

/-- C7: a single-vector corpus (with finite entries, so that validation
passes) always yields exactly one cluster, of size 1. -/
theorem C7_singleton (row : List FloatVal) (t : ℚ)
    (h : row.all FloatVal.isFinite = true) :
    perform_clustering [row] t = .ok [(0, [0])] := by
  have h3 : ([row].any fun r => r.any fun x => !x.isFinite) = false := by
    simp only [List.all_eq_true] at h
    simp only [List.any_cons, List.any_nil, Bool.or_false, List.any_eq_false]
    intro x hx
    simp [h x hx]
  have hv : validateMatrix [row] = .ok [row.map FloatVal.toQ] := by
    unfold validateMatrix
    simp [h3]
  show (validateMatrix [row] >>= fun E =>
      pure (groupByLabels (labelsOfGroups (agglomerate E t) E.length))) = _
  rw [hv]
  rfl

/-- Witness for C7 at a concrete one-vector input. -/
theorem C7_singleton_witness :
    ([FloatVal.fin 1].all FloatVal.isFinite = true) ∧
    perform_clustering [[FloatVal.fin 1]] 0 = .ok [(0, [0])] :=
  ⟨rfl, C7_singleton [FloatVal.fin 1] 0 rfl⟩

/-- C9: the clustering model is a pure function, so identical vectors and
threshold yield identical partitions — the merge order, including the
tie-break by lowest candidate index pair built into `selectMin` /
`pairCandidates`, is fully deterministic. -/
theorem C9_deterministic_replay (M₁ M₂ : List (List FloatVal)) (t₁ t₂ : ℚ)
    (hM : M₁ = M₂) (ht : t₁ = t₂) :
    perform_clustering M₁ t₁ = perform_clustering M₂ t₂ := by rw [hM, ht]

/-- Witness for C9 at a concrete input. -/
theorem C9_deterministic_replay_witness :
    [[FloatVal.fin 1]] = [[FloatVal.fin 1]] ∧ (1 : ℚ) = 1 ∧
    perform_clustering [[FloatVal.fin 1]] 1 = perform_clustering [[FloatVal.fin 1]] 1 :=
  ⟨rfl, rfl, C9_deterministic_replay _ _ _ _ rfl rfl⟩

/-! ## Stable insertion sort: permutation and sortedness -/

theorem insertBy_perm (le : α → α → Bool) (x : α) (l : List α) :
    List.Perm (insertBy le x l) (x :: l) := by
  induction l with
  | nil => rfl
  | cons y ys ih =>
    by_cases h : le x y = true
    · simp [insertBy, h]
    · simp only [insertBy, h]
      rw [if_neg (by simp [h])]
      exact ((ih.cons y).trans (List.Perm.swap x y ys)).symm.symm

theorem sortBy_perm (le : α → α → Bool) (l : List α) : List.Perm (sortBy le l) l := by
  induction l with
  | nil => rfl
  | cons x xs ih => exact (insertBy_perm le x (sortBy le xs)).trans (ih.cons x)

theorem mem_insertBy {le : α → α → Bool} {x z : α} {l : List α}
    (h : z ∈ insertBy le x l) : z = x ∨ z ∈ l := by
  have := (insertBy_perm le x l).mem_iff.mp h
  simpa using this

theorem pairwise_insertBy {le : α → α → Bool}
    (htot : ∀ a b, le a b = true ∨ le b a = true)
    (htrans : ∀ a b c, le a b = true → le b c = true → le a c = true)
    (x : α) {l : List α} (hl : l.Pairwise (fun a b => le a b = true)) :
    (insertBy le x l).Pairwise (fun a b => le a b = true) := by
  induction l with
  | nil => simp [insertBy]
  | cons y ys ih =>
    rw [List.pairwise_cons] at hl
    obtain ⟨hy, hys⟩ := hl
    by_cases h : le x y = true
    · rw [insertBy, if_pos h, List.pairwise_cons]
      refine ⟨fun z hz => ?_, List.pairwise_cons.mpr ⟨hy, hys⟩⟩
      rcases List.mem_cons.mp hz with rfl | hz
      · exact h
      · exact htrans x y z h (hy z hz)
    · rw [insertBy, if_neg (by simp [h]), List.pairwise_cons]
      refine ⟨fun z hz => ?_, ih hys⟩
      rcases mem_insertBy hz with rfl | hz
      · rcases htot z y with hzy | hyz
        · exact absurd hzy h
        · exact hyz
      · exact hy z hz

theorem sortBy_pairwise {le : α → α → Bool}
    (htot : ∀ a b, le a b = true ∨ le b a = true)
    (htrans : ∀ a b c, le a b = true → le b c = true → le a c = true)
    (l : List α) : (sortBy le l).Pairwise (fun a b => le a b = true) := by
  induction l with
  | nil => simp [sortBy]
  | cons x xs ih => exact pairwise_insertBy htot htrans x ih

/-! ## Output ordering of the representative sampler (C3) -/

set_option maxRecDepth 100000 in
/-- C3 counterexample: a 60-row embedding matrix and 60-row corpus with
three clusters of sizes {25, 25, 10} partitioning the indices 0–59 (all
member indices in range, so every `embeddings[indices]` and `df.iloc`
access succeeds), whose dict order is id 5 before id 2.  The source's
stable `sort(key=size, reverse=True)` emits [id 5, id 2, id 0] — the
equal-size pair keeps dict insertion order, not the ascending-id order
[2, 5, 0] the claim requires. -/
theorem C3_tie_order_cex :
    (get_representative_samples
        [((5 : ℤ), (List.range 25).map (fun i => i + 10)),
         ((2 : ℤ), (List.range 25).map (fun i => i + 35)),
         ((0 : ℤ), List.range 10)]
        (List.replicate 60 [1]) (List.replicate 60 "t") 5).map
      (fun l => l.map (fun s => (s.cluster_id, s.size)))
      = some [(5, 25), (2, 25), (0, 10)] ∧
    [((5 : ℤ), 25), ((2 : ℤ), 25), ((0 : ℤ), 10)]
      ≠ [((2 : ℤ), 25), ((5 : ℤ), 25), ((0 : ℤ), 10)] :=
  ⟨by with_unfolding_all rfl, by decide⟩

/-- C3 amended: `get_representative_samples` emits the per-cluster
summaries sorted by descending size, with ties in size keeping the
clusters' dict insertion order (Python's stable sort), not ascending
cluster id. -/
theorem C3_sort_order_amended (clusters : List (ℤ × List ℕ))
    (E : List (List ℚ)) (texts : List String) (k : ℕ)
    (out : List ClusterSummary)
    (h : get_representative_samples clusters E texts k = some out) :
    ∃ sums, mapOpt (summarizeCluster E texts k) clusters = some sums ∧
      out = sortBy sizeGE sums ∧ List.Perm out sums ∧
      out.Pairwise (fun a b => b.size ≤ a.size) := by
  unfold get_representative_samples at h
  cases hm : mapOpt (summarizeCluster E texts k) clusters with
  | none => rw [hm] at h; exact absurd h (by simp)
  | some sums =>
    rw [hm] at h
    have h2 : some (sortBy sizeGE sums) = some out := h
    have h3 := (Option.some.inj h2).symm
    subst h3
    refine ⟨sums, rfl, rfl, sortBy_perm _ _, ?_⟩
    have hp := @sortBy_pairwise ClusterSummary sizeGE
      (fun a b => by
        rcases Nat.le_total b.size a.size with hle | hle
        · exact Or.inl (by simpa [sizeGE] using hle)
        · exact Or.inr (by simpa [sizeGE] using hle))
      (fun a b c hab hbc => by
        simp only [sizeGE, decide_eq_true_eq] at hab hbc ⊢
        omega) sums
    exact hp.imp (fun {a b} hab => by
      simpa [sizeGE, decide_eq_true_eq] using hab)

/-- Witness for the amended C3 at a concrete two-cluster input. -/
theorem C3_sort_order_amended_witness :
    get_representative_samples [(0, [0]), (1, [1, 2])] [[1], [2], [3]]
        ["a", "b", "c"] 1
      = some [⟨1, 2, 6667 / 100, ["b"]⟩, ⟨0, 1, 3333 / 100, ["a"]⟩] ∧
    ∃ sums, mapOpt (summarizeCluster [[1], [2], [3]] ["a", "b", "c"] 1)
        [(0, [0]), (1, [1, 2])] = some sums ∧
      [⟨1, 2, 6667 / 100, ["b"]⟩, ⟨0, 1, 3333 / 100, ["a"]⟩] = sortBy sizeGE sums ∧
      List.Perm [(⟨1, 2, 6667 / 100, ["b"]⟩ : ClusterSummary),
        ⟨0, 1, 3333 / 100, ["a"]⟩] sums ∧
      List.Pairwise (fun a b => b.size ≤ a.size)
        [(⟨1, 2, 6667 / 100, ["b"]⟩ : ClusterSummary), ⟨0, 1, 3333 / 100, ["a"]⟩] :=
  ⟨by with_unfolding_all rfl,
   C3_sort_order_amended [(0, [0]), (1, [1, 2])] [[1], [2], [3]] ["a", "b", "c"] 1
     [⟨1, 2, 6667 / 100, ["b"]⟩, ⟨0, 1, 3333 / 100, ["a"]⟩]
     (by with_unfolding_all rfl)⟩

/-! ## Representative sample selection (C4) -/

theorem mapOpt_some_eq_map {f : α → Option β} {l : List α} {ys : List β}
    (h : mapOpt f l = some ys) (g : α → β)
    (hg : ∀ x (y : β), f x = some y → g x = y) : ys = l.map g := by
  induction l generalizing ys with
  | nil =>
    have h2 : some ([] : List β) = some ys := h
    simp [← Option.some.inj h2]
  | cons x xs ih =>
    unfold mapOpt at h
    cases hf : f x with
    | none => rw [hf] at h; exact absurd h (by simp)
    | some y =>
      rw [hf] at h
      cases hm : mapOpt f xs with
      | none => rw [hm] at h; exact absurd h (by simp)
      | some zs =>
        rw [hm] at h
        have h2 : some (y :: zs) = some ys := h
        rw [← Option.some.inj h2, List.map_cons, ← ih hm, hg x y hf]

theorem mapOpt_length {f : α → Option β} {l : List α} {ys : List β}
    (h : mapOpt f l = some ys) : ys.length = l.length := by
  induction l generalizing ys with
  | nil =>
    have h2 : some ([] : List β) = some ys := h
    simp [← Option.some.inj h2]
  | cons x xs ih =>
    unfold mapOpt at h
    cases hf : f x with
    | none => rw [hf] at h; exact absurd h (by simp)
    | some y =>
      rw [hf] at h
      cases hm : mapOpt f xs with
      | none => rw [hm] at h; exact absurd h (by simp)
      | some zs =>
        rw [hm] at h
        have h2 : some (y :: zs) = some ys := h
        simp [← Option.some.inj h2, ih hm]

theorem argLE_total (keys : List ℚ) (i j : ℕ) :
    argLE keys i j = true ∨ argLE keys j i = true := by
  unfold argLE
  simp only [Bool.or_eq_true, Bool.and_eq_true, decide_eq_true_eq]
  rcases lt_trichotomy (keys.getD i 0) (keys.getD j 0) with h | h | h
  · exact Or.inr (Or.inl h)
  · rcases Nat.le_total i j with hle | hle
    · exact Or.inl (Or.inr ⟨h, hle⟩)
    · exact Or.inr (Or.inr ⟨h.symm, hle⟩)
  · exact Or.inl (Or.inl h)

theorem argLE_trans (keys : List ℚ) (a b c : ℕ)
    (hab : argLE keys a b = true) (hbc : argLE keys b c = true) :
    argLE keys a c = true := by
  unfold argLE at hab hbc ⊢
  simp only [Bool.or_eq_true, Bool.and_eq_true, decide_eq_true_eq] at hab hbc ⊢
  rcases hab with h1 | ⟨h1, h2⟩ <;> rcases hbc with h3 | ⟨h3, h4⟩
  · left; linarith
  · left; linarith [h3.ge]
  · left; linarith [h1.le]
  · right; exact ⟨h1.trans h3, h2.trans h4⟩

theorem summarizeCluster_some {E : List (List ℚ)} {texts : List String}
    {k : ℕ} {cid : ℤ} {idxs : List ℕ} {s : ClusterSummary}
    (h : summarizeCluster E texts k (cid, idxs) = some s) :
    ∃ samples frac,
      mapOpt (fun i => texts.get? i)
        (((sortedLocal E idxs).take k).map (fun li => idxs.getD li 0)) = some samples ∧
      pyDiv (idxs.length : ℚ) (texts.length : ℚ) = some frac ∧
      s = ⟨cid, idxs.length, pyRound2 (frac * 100), samples⟩ := by
  simp only [summarizeCluster] at h
  cases hm : mapOpt (fun i => texts.get? i)
      (((sortedLocal E idxs).take k).map (fun li => idxs.getD li 0)) with
  | none => rw [hm] at h; exact absurd h (by simp)
  | some samples =>
    rw [hm] at h
    cases hd : pyDiv (idxs.length : ℚ) (texts.length : ℚ) with
    | none => rw [hd] at h; exact absurd h (by simp)
    | some frac =>
      rw [hd] at h
      have h2 : some (⟨cid, idxs.length, pyRound2 (frac * 100), samples⟩ :
        ClusterSummary) = some s := h
      exact ⟨samples, frac, rfl, rfl, (Option.some.inj h2).symm⟩

/-- C4: for every cluster processed by `get_representative_samples` (its
per-cluster body `summarizeCluster`), the representative samples are
exactly the texts of the `min(samples_per_cluster, size)` members closest
to the centroid in cosine distance, in ascending distance order: the
local order `sortedLocal` is a permutation of all member positions,
sorted by the cosine-distance order `argLE` (larger `cosKey` = smaller
distance, ties by position), and the emitted samples are the texts of its
first `k` entries, so their number is `min k size`. -/
theorem C4_representative_selection (E : List (List ℚ)) (texts : List String)
    (k : ℕ) (cid : ℤ) (idxs : List ℕ) (s : ClusterSummary)
    (h : summarizeCluster E texts k (cid, idxs) = some s) :
    s.size = idxs.length ∧
    s.representative_samples.length = min k idxs.length ∧
    List.Perm (sortedLocal E idxs) (List.range idxs.length) ∧
    (sortedLocal E idxs).Pairwise
      (fun a b => argLE (clusterKeys E idxs) a b = true) ∧
    s.representative_samples
      = ((sortedLocal E idxs).take k).map (fun li => texts.getD (idxs.getD li 0) "") := by
  obtain ⟨samples, frac, hm, hd, rfl⟩ := summarizeCluster_some h
  have hperm : List.Perm (sortedLocal E idxs) (List.range idxs.length) :=
    sortBy_perm _ _
  have hsamp : samples
      = (((sortedLocal E idxs).take k).map (fun li => idxs.getD li 0)).map
          (fun i => texts.getD i "") := by
    refine mapOpt_some_eq_map hm (fun i => texts.getD i "") ?_
    intro x y hxy
    show texts.getD x "" = y
    rw [List.getD_eq_getElem?_getD, ← List.get?_eq_getElem?, hxy]
    rfl
  have hlen : samples.length = min k idxs.length := by
    rw [hsamp, List.length_map, List.length_map, List.length_take]
    rw [hperm.length_eq, List.length_range]
  refine ⟨rfl, hlen, hperm, ?_, by rw [hsamp, List.map_map]; rfl⟩
  exact sortBy_pairwise (argLE_total (clusterKeys E idxs))
    (argLE_trans (clusterKeys E idxs)) _

/-- Witness for C4 at a concrete two-member cluster. -/
theorem C4_representative_selection_witness :
    summarizeCluster [[1, 0], [0, 1]] ["a", "b"] 5 (0, [0, 1])
      = some ⟨0, 2, 100, ["a", "b"]⟩ ∧
    ((⟨(0 : ℤ), 2, 100, ["a", "b"]⟩ : ClusterSummary).size = [0, 1].length ∧
     (⟨(0 : ℤ), 2, 100, ["a", "b"]⟩ : ClusterSummary).representative_samples.length
       = min 5 [0, 1].length ∧
     List.Perm (sortedLocal [[1, 0], [0, 1]] [0, 1]) (List.range [0, 1].length) ∧
     (sortedLocal [[1, 0], [0, 1]] [0, 1]).Pairwise
       (fun a b => argLE (clusterKeys [[1, 0], [0, 1]] [0, 1]) a b = true) ∧
     (⟨(0 : ℤ), 2, 100, ["a", "b"]⟩ : ClusterSummary).representative_samples
       = ((sortedLocal [[1, 0], [0, 1]] [0, 1]).take 5).map
           (fun li => ["a", "b"].getD ([0, 1].getD li 0) "")) :=
  ⟨by with_unfolding_all rfl,
   C4_representative_selection [[1, 0], [0, 1]] ["a", "b"] 5 0 [0, 1]
     ⟨0, 2, 100, ["a", "b"]⟩ (by with_unfolding_all rfl)⟩

/-! ## Threshold monotonicity of the agglomeration (C8) -/

theorem foldl_pick_mem (xs : List ((ℕ × ℕ) × ℚ)) (b : (ℕ × ℕ) × ℚ) :
    xs.foldl (fun best y => if y.2 < best.2 then y else best) b ∈ b :: xs := by
  induction xs generalizing b with
  | nil => simp
  | cons y ys ih =>
    simp only [List.foldl_cons]
    rcases List.mem_cons.mp (ih (if y.2 < b.2 then y else b)) with h | h
    · rw [h]
      by_cases hy : y.2 < b.2
      · rw [if_pos hy]
        exact List.mem_cons_of_mem _ (List.mem_cons_self _ _)
      · rw [if_neg hy]
        exact List.mem_cons_self _ _
    · exact List.mem_cons_of_mem _ (List.mem_cons_of_mem _ h)

theorem selectMin_mem {l : List ((ℕ × ℕ) × ℚ)} {x : (ℕ × ℕ) × ℚ}
    (h : selectMin l = some x) : x ∈ l := by
  cases l with
  | nil => exact absurd h (by simp [selectMin])
  | cons y ys =>
    have h2 : some (ys.foldl (fun best z => if z.2 < best.2 then z else best) y)
        = some x := h
    exact Option.some.inj h2 ▸ foldl_pick_mem ys y

theorem mem_pairCandidates {i j m : ℕ} (h : (i, j) ∈ pairCandidates m) :
    i < j ∧ j < m := by
  simp only [pairCandidates, List.mem_flatMap, List.mem_filterMap,
    List.mem_range] at h
  obtain ⟨a, _, b, hb, hab⟩ := h
  by_cases hlt : a < b
  · rw [if_pos hlt] at hab
    obtain ⟨h1, h2⟩ := Prod.mk.inj (Option.some.inj hab)
    exact ⟨h1 ▸ h2 ▸ hlt, h2 ▸ hb⟩
  · rw [if_neg hlt] at hab
    exact absurd hab (by simp)

theorem stepMin_some {E : List (List ℚ)} {s : List (List ℕ)}
    {ij : ℕ × ℕ} {c : ℚ} (h : stepMin E s = some (ij, c)) :
    ij.1 < ij.2 ∧ ij.2 < s.length := by
  have hm := selectMin_mem h
  simp only [candList, List.mem_map] at hm
  obtain ⟨ij', hij', heq⟩ := hm
  obtain ⟨h1, -⟩ := Prod.mk.inj heq
  obtain ⟨a, b⟩ := ij'
  exact h1 ▸ mem_pairCandidates hij'

theorem length_mergeAt {s : List (List ℕ)} {i j : ℕ} (hij : i < j)
    (hj : j < s.length) : (mergeAt s i j).length = s.length - 1 := by
  simp only [mergeAt, List.length_append, List.length_take, List.length_drop,
    List.length_cons, List.length_nil]
  omega

theorem agglomRun_length_le (E : List (List ℚ)) (fuel : ℕ) (tsq : ℚ)
    (s : List (List ℕ)) : (agglomRun E fuel tsq s).length ≤ s.length := by
  induction fuel generalizing s with
  | zero => simp [agglomRun]
  | succ fuel ih =>
    cases hsm : stepMin E s with
    | none => simp [agglomRun, hsm]
    | some ijc =>
      obtain ⟨ij, c⟩ := ijc
      simp only [agglomRun, hsm]
      by_cases hc : c ≤ tsq
      · rw [if_pos hc]
        obtain ⟨h1, h2⟩ := stepMin_some hsm
        calc (agglomRun E fuel tsq (mergeAt s ij.1 ij.2)).length
            ≤ (mergeAt s ij.1 ij.2).length := ih _
          _ ≤ s.length := by rw [length_mergeAt h1 h2]; omega
      · rw [if_neg hc]

theorem agglomRun_mono (E : List (List ℚ)) (fuel : ℕ) {tsq₁ tsq₂ : ℚ}
    (h : tsq₁ ≤ tsq₂) (s : List (List ℕ)) :
    (agglomRun E fuel tsq₂ s).length ≤ (agglomRun E fuel tsq₁ s).length := by
  induction fuel generalizing s with
  | zero => simp [agglomRun]
  | succ fuel ih =>
    cases hsm : stepMin E s with
    | none => simp [agglomRun, hsm]
    | some ijc =>
      obtain ⟨ij, c⟩ := ijc
      simp only [agglomRun, hsm]
      by_cases hc1 : c ≤ tsq₁
      · rw [if_pos hc1, if_pos (le_trans hc1 h)]
        exact ih _
      · rw [if_neg hc1]
        by_cases hc2 : c ≤ tsq₂
        · rw [if_pos hc2]
          obtain ⟨h1, h2⟩ := stepMin_some hsm
          calc (agglomRun E fuel tsq₂ (mergeAt s ij.1 ij.2)).length
              ≤ (mergeAt s ij.1 ij.2).length := agglomRun_length_le _ _ _ _
            _ ≤ s.length := by rw [length_mergeAt h1 h2]; omega
        · rw [if_neg hc2]

theorem mergeAt_decomp {s : List (List ℕ)} {i j : ℕ} (hij : i < j)
    (hj : j < s.length) :
    s = s.take i ++ s.getD i [] ::
      ((s.drop (i + 1)).take (j - i - 1) ++ s.getD j [] :: s.drop (j + 1)) := by
  have hi : i < s.length := lt_trans hij hj
  have e1 : s.getD i [] = s[i] := by
    rw [List.getD_eq_getElem?_getD, List.getElem?_eq_getElem hi]; rfl
  have e2 : s.getD j [] = s[j] := by
    rw [List.getD_eq_getElem?_getD, List.getElem?_eq_getElem hj]; rfl
  have e3 : (i + 1) + (j - i - 1) = j := by omega
  calc s = s.take i ++ s.drop i := (List.take_append_drop i s).symm
    _ = s.take i ++ (s[i] :: s.drop (i + 1)) := by
        rw [List.drop_eq_getElem_cons hi]
    _ = s.take i ++ (s[i] :: ((s.drop (i + 1)).take (j - i - 1)
          ++ (s.drop (i + 1)).drop (j - i - 1))) := by
        rw [List.take_append_drop]
    _ = s.take i ++ (s[i] :: ((s.drop (i + 1)).take (j - i - 1)
          ++ (s[j] :: s.drop (j + 1)))) := by
        rw [List.drop_drop, e3, List.drop_eq_getElem_cons hj]
    _ = _ := by rw [e1, e2]

theorem count_flatten_mergeAt {s : List (List ℕ)} {i j : ℕ} (hij : i < j)
    (hj : j < s.length) (x : ℕ) :
    (mergeAt s i j).flatten.count x = s.flatten.count x := by
  conv_rhs => rw [mergeAt_decomp hij hj]
  simp only [mergeAt, List.flatten_append, List.flatten_cons,
    List.count_append, List.append_assoc, List.cons_append, List.nil_append]
  omega

theorem not_nil_mergeAt {s : List (List ℕ)} {i j : ℕ} (hij : i < j)
    (hj : j < s.length) (h : [] ∉ s) : [] ∉ mergeAt s i j := by
  have hi : i < s.length := lt_trans hij hj
  have ha : s.getD i [] ∈ s := by
    rw [List.getD_eq_getElem?_getD, List.getElem?_eq_getElem hi]
    exact List.getElem_mem hi
  have hane : s.getD i [] ≠ [] := fun hn => h (hn ▸ ha)
  intro hmem
  rw [mergeAt] at hmem
  rcases List.mem_append.mp hmem with h1 | h1
  · rcases List.mem_append.mp h1 with h2 | h2
    · rcases List.mem_append.mp h2 with h3 | h3
      · exact h (List.take_subset i s h3)
      · have h4 := List.mem_singleton.mp h3
        exact hane (List.append_eq_nil.mp h4.symm).1
    · exact h ((List.drop_subset _ _) ((List.take_subset _ _) h2))
  · exact h ((List.drop_subset _ _) h1)

theorem validGroups_mergeAt {n : ℕ} {s : List (List ℕ)} {i j : ℕ}
    (hij : i < j) (hj : j < s.length) (h : ValidGroups n s) :
    ValidGroups n (mergeAt s i j) :=
  ⟨fun x => (count_flatten_mergeAt hij hj x).trans (h.1 x),
   not_nil_mergeAt hij hj h.2⟩

theorem validGroups_agglomRun (E : List (List ℚ)) (fuel : ℕ) (tsq : ℚ)
    {n : ℕ} {s : List (List ℕ)} (h : ValidGroups n s) :
    ValidGroups n (agglomRun E fuel tsq s) := by
  induction fuel generalizing s with
  | zero => simpa [agglomRun] using h
  | succ fuel ih =>
    cases hsm : stepMin E s with
    | none => simpa [agglomRun, hsm] using h
    | some ijc =>
      obtain ⟨ij, c⟩ := ijc
      simp only [agglomRun, hsm]
      by_cases hc : c ≤ tsq
      · rw [if_pos hc]
        obtain ⟨h1, h2⟩ := stepMin_some hsm
        exact ih (validGroups_mergeAt h1 h2 h)
      · rw [if_neg hc]; exact h

theorem flatten_map_singleton (l : List ℕ) :
    (l.map (fun i => [i])).flatten = l := by
  induction l with
  | nil => rfl
  | cons x xs ih => simp [ih]

theorem validGroups_init (n : ℕ) :
    ValidGroups n ((List.range n).map (fun i => [i])) := by
  constructor
  · intro x
    rw [flatten_map_singleton]
    by_cases hx : x < n
    · rw [if_pos hx]
      exact List.count_eq_one_of_mem (List.nodup_range n) (List.mem_range.mpr hx)
    · rw [if_neg hx]
      exact List.count_eq_zero.mpr (by simpa using hx)
  · intro hmem
    simp only [List.mem_map] at hmem
    obtain ⟨i, -, hi⟩ := hmem
    simp at hi

theorem validGroups_agglomerate (E : List (List ℚ)) (t : ℚ) :
    ValidGroups E.length (agglomerate E t) :=
  validGroups_agglomRun E E.length (t ^ 2) (validGroups_init E.length)

theorem idxOfGroup_lt {i : ℕ} {gs : List (List ℕ)} (h : ∃ g ∈ gs, i ∈ g) :
    idxOfGroup i gs < gs.length := by
  induction gs with
  | nil => simp at h
  | cons g gs ih =>
    by_cases hg : g.contains i = true
    · have hmem : i ∈ g := by simpa using hg
      simp [idxOfGroup, hmem]
    · rw [idxOfGroup, if_neg hg]
      simp only [List.length_cons]
      have hex : ∃ g' ∈ gs, i ∈ g' := by
        obtain ⟨g', hg', hi⟩ := h
        rcases List.mem_cons.mp hg' with rfl | hmem
        · exact absurd (by simpa using hi) hg
        · exact ⟨g', hmem, hi⟩
      have := ih hex
      omega

theorem idxOfGroup_eq {i : ℕ} : ∀ {gs : List (List ℕ)} {p : ℕ},
    p < gs.length → i ∈ gs.getD p [] → gs.flatten.count i ≤ 1 →
    idxOfGroup i gs = p := by
  intro gs
  induction gs with
  | nil => intro p hp; simp at hp
  | cons g gs ih =>
    intro p hp hi hc
    cases p with
    | zero =>
      have hmem : i ∈ g := by
        simpa using (hi : i ∈ (g :: gs).getD 0 [])
      simp [idxOfGroup, hmem]
    | succ p =>
      have hp' : p < gs.length := by simpa using Nat.lt_of_succ_lt_succ (by simpa using hp)
      simp only [List.getD_cons_succ] at hi
      have hig : i ∉ g := by
        intro hig
        have h1 : 1 ≤ g.count i := List.one_le_count_iff.mpr hig
        have h2 : i ∈ gs.flatten := List.mem_flatten.mpr ⟨gs.getD p [], by
          rw [List.getD_eq_getElem?_getD, List.getElem?_eq_getElem hp']
          exact List.getElem_mem hp', hi⟩
        have h3 : 1 ≤ gs.flatten.count i := List.one_le_count_iff.mpr h2
        rw [List.flatten_cons, List.count_append] at hc
        omega
      rw [idxOfGroup, if_neg (by simpa using hig)]
      have hc' : gs.flatten.count i ≤ 1 := by
        rw [List.flatten_cons, List.count_append] at hc; omega
      rw [ih hp' hi hc']

theorem mem_labelsOfGroups {n : ℕ} {g : List (List ℕ)} (hv : ValidGroups n g)
    (l : ℤ) : l ∈ labelsOfGroups g n ↔ ∃ p, p < g.length ∧ l = (p : ℤ) := by
  constructor
  · intro hmem
    simp only [labelsOfGroups, List.mem_map, List.mem_range] at hmem
    obtain ⟨i, hin, rfl⟩ := hmem
    refine ⟨idxOfGroup i g, ?_, rfl⟩
    have h1 : g.flatten.count i = 1 := by rw [hv.1 i, if_pos hin]
    have h2 : i ∈ g.flatten := List.one_le_count_iff.mp (by omega)
    obtain ⟨grp, hgrp, higrp⟩ := List.mem_flatten.mp h2
    exact idxOfGroup_lt ⟨grp, hgrp, higrp⟩
  · rintro ⟨p, hp, rfl⟩
    have hgp : g.getD p [] ∈ g := by
      rw [List.getD_eq_getElem?_getD, List.getElem?_eq_getElem hp]
      exact List.getElem_mem hp
    have hne : g.getD p [] ≠ [] := fun hnil => hv.2 (hnil ▸ hgp)
    obtain ⟨i, hi⟩ := List.exists_mem_of_ne_nil _ hne
    have hin : i ∈ g.flatten := List.mem_flatten.mpr ⟨_, hgp, hi⟩
    have hin' : i < n := by
      by_contra hval
      have hz := hv.1 i
      rw [if_neg hval] at hz
      exact absurd (List.one_le_count_iff.mpr hin) (by omega)
    simp only [labelsOfGroups, List.mem_map, List.mem_range]
    refine ⟨i, hin', ?_⟩
    rw [idxOfGroup_eq hp hi (le_of_eq (by rw [hv.1 i, if_pos hin']))]

theorem keys_insertLabel (acc : List (ℤ × List ℕ)) (l : ℤ) (j : ℕ) :
    (insertLabel acc l j).map Prod.fst =
      if l ∈ acc.map Prod.fst then acc.map Prod.fst
      else acc.map Prod.fst ++ [l] := by
  induction acc with
  | nil => simp [insertLabel]
  | cons p rest ih =>
    obtain ⟨k, v⟩ := p
    by_cases hk : k = l
    · subst hk
      simp [insertLabel]
    · rw [insertLabel, if_neg hk]
      simp only [List.map_cons]
      rw [ih]
      by_cases hmem : l ∈ rest.map Prod.fst
      · rw [if_pos hmem, if_pos (by exact List.mem_cons_of_mem _ hmem)]
      · rw [if_neg hmem, if_neg ?_]
        · simp
        · intro hc
          rcases List.mem_cons.mp hc with h | h
          · exact hk h.symm
          · exact hmem h

theorem keys_groupByLabelsAux_mem (ls : List ℤ) (start : ℕ)
    (acc : List (ℤ × List ℕ)) (l : ℤ) :
    l ∈ (groupByLabelsAux ls start acc).map Prod.fst ↔
      l ∈ acc.map Prod.fst ∨ l ∈ ls := by
  induction ls generalizing start acc with
  | nil => simp [groupByLabelsAux]
  | cons x xs ih =>
    rw [groupByLabelsAux, ih, keys_insertLabel]
    by_cases hmem : x ∈ acc.map Prod.fst
    · rw [if_pos hmem]
      simp only [List.mem_cons]
      constructor
      · rintro (h | h)
        · exact Or.inl h
        · exact Or.inr (Or.inr h)
      · rintro (h | h | h)
        · exact Or.inl h
        · exact Or.inl (h ▸ hmem)
        · exact Or.inr h
    · rw [if_neg hmem]
      simp only [List.mem_append, List.mem_cons, List.not_mem_nil, or_false]
      constructor
      · rintro ((h | h) | h)
        · exact Or.inl h
        · exact Or.inr (Or.inl h)
        · exact Or.inr (Or.inr h)
      · rintro (h | h | h)
        · exact Or.inl (Or.inl h)
        · exact Or.inl (Or.inr h)
        · exact Or.inr h

theorem keys_groupByLabelsAux_nodup (ls : List ℤ) (start : ℕ)
    (acc : List (ℤ × List ℕ)) (h : (acc.map Prod.fst).Nodup) :
    ((groupByLabelsAux ls start acc).map Prod.fst).Nodup := by
  induction ls generalizing start acc with
  | nil => simpa [groupByLabelsAux]
  | cons x xs ih =>
    rw [groupByLabelsAux]
    apply ih
    rw [keys_insertLabel]
    by_cases hmem : x ∈ acc.map Prod.fst
    · rwa [if_pos hmem]
    · rw [if_neg hmem]
      refine List.Nodup.append h (List.nodup_singleton x) ?_
      intro a ha hb
      rw [List.mem_singleton] at hb
      subst hb
      exact hmem ha

theorem length_groupByLabels_of_validGroups {n : ℕ} {g : List (List ℕ)}
    (hv : ValidGroups n g) :
    (groupByLabels (labelsOfGroups g n)).length = g.length := by
  have hnodup : ((groupByLabels (labelsOfGroups g n)).map Prod.fst).Nodup :=
    keys_groupByLabelsAux_nodup _ 0 [] (by simp)
  have hmem : ∀ l : ℤ, l ∈ (groupByLabels (labelsOfGroups g n)).map Prod.fst ↔
      l ∈ (List.range g.length).map (fun (p : ℕ) => (p : ℤ)) := by
    intro l
    rw [groupByLabels, keys_groupByLabelsAux_mem, mem_labelsOfGroups hv]
    constructor
    · rintro (h | ⟨p, hp, rfl⟩)
      · simp at h
      · exact List.mem_map.mpr ⟨p, List.mem_range.mpr hp, rfl⟩
    · intro h
      obtain ⟨p, hp, rfl⟩ := List.mem_map.mp h
      exact Or.inr ⟨p, List.mem_range.mp hp, rfl⟩
  have hnodup2 : ((List.range g.length).map (fun (p : ℕ) => (p : ℤ))).Nodup :=
    List.Nodup.map (fun a b h => by exact_mod_cast h) (List.nodup_range _)
  have hperm := (List.perm_ext_iff_of_nodup hnodup hnodup2).mpr hmem
  have hlen := hperm.length_eq
  simpa using hlen

/-- C8: for a fixed accepted matrix, a strictly smaller (non-negative)
distance threshold never produces fewer clusters: the merge sequence is
threshold-independent and the run at the smaller threshold stops no
later, so its final cluster count is at least as large. -/
theorem C8_threshold_monotone (M : List (List FloatVal)) (t₁ t₂ : ℚ)
    (r₁ r₂ : List (ℤ × List ℕ)) (h0 : 0 ≤ t₁) (h12 : t₁ < t₂)
    (h1 : perform_clustering M t₁ = .ok r₁)
    (h2 : perform_clustering M t₂ = .ok r₂) :
    r₂.length ≤ r₁.length := by
  obtain ⟨E₁, hv1, hlen1, hr1⟩ := perform_clustering_ok h1
  obtain ⟨E₂, hv2, hlen2, hr2⟩ := perform_clustering_ok h2
  have hE : E₁ = E₂ := by rw [validateMatrix_ok hv1, validateMatrix_ok hv2]
  subst hE
  have hsq : t₁ ^ 2 ≤ t₂ ^ 2 := by nlinarith
  have hm : (agglomerate E₁ t₂).length ≤ (agglomerate E₁ t₁).length := by
    unfold agglomerate
    exact agglomRun_mono E₁ E₁.length hsq _
  rw [hr1, hr2,
    length_groupByLabels_of_validGroups (validGroups_agglomerate E₁ t₂),
    length_groupByLabels_of_validGroups (validGroups_agglomerate E₁ t₁)]
  exact hm

/-- Witness for C8: two unit-separated vectors stay apart at threshold
1/2 (two clusters) and merge at threshold 2 (one cluster). -/
theorem C8_threshold_monotone_witness :
    (0 : ℚ) ≤ 1 / 2 ∧ (1 : ℚ) / 2 < 2 ∧
    perform_clustering [[FloatVal.fin 0], [FloatVal.fin 1]] (1 / 2)
      = .ok [(0, [0]), (1, [1])] ∧
    perform_clustering [[FloatVal.fin 0], [FloatVal.fin 1]] 2
      = .ok [(0, [0, 1])] ∧
    [((0 : ℤ), [0, 1])].length ≤ [((0 : ℤ), [(0 : ℕ)]), (1, [1])].length :=
  ⟨by norm_num, by norm_num, by with_unfolding_all rfl, by with_unfolding_all rfl,
   C8_threshold_monotone [[FloatVal.fin 0], [FloatVal.fin 1]] (1 / 2) 2
     [(0, [0]), (1, [1])] [(0, [0, 1])] (by norm_num) (by norm_num)
     (by with_unfolding_all rfl) (by with_unfolding_all rfl)⟩

/-! ## The injection-test analysis loop (C2, C10) -/

theorem mapOpt_of_forall_some {f : α → Option β} {g : α → β} : ∀ {l : List α},
    (∀ x ∈ l, f x = some (g x)) → mapOpt f l = some (l.map g)
  | [], _ => rfl
  | x :: xs, h => by
    have hx := h x (List.mem_cons_self x xs)
    have ih := mapOpt_of_forall_some (fun y hy => h y (List.mem_cons_of_mem x hy))
    unfold mapOpt
    rw [hx, ih]
    rfl

theorem injFlagsOf_of_range {inj : List Bool} {idxs : List ℕ}
    (h : ∀ i ∈ idxs, i < inj.length) :
    injFlagsOf inj idxs = some (idxs.map (fun i => inj.getD i false)) := by
  refine mapOpt_of_forall_some (fun i hi => ?_)
  rw [List.getD_eq_getElem?_getD, ← List.get?_eq_getElem?,
    List.get?_eq_get (h i hi)]
  rfl

theorem countP_flatten_sum (p : ℕ → Bool) (L : List (List ℕ)) :
    L.flatten.countP p = (L.map (fun l => l.countP p)).sum := by
  induction L with
  | nil => simp
  | cons x xs ih => simp [List.countP_append, ih]

theorem length_filter_range_getD (inj : List Bool) :
    ((List.range inj.length).filter (fun i => inj.getD i false)).length
      = inj.count true := by
  induction inj with
  | nil => simp
  | cons b rest ih =>
    have hcomp : ((fun i => (b :: rest).getD i false) ∘ Nat.succ)
        = (fun i => rest.getD i false) := by
      funext i
      rfl
    rw [List.length_cons, List.range_succ_eq_map, List.filter_cons,
      List.filter_map, hcomp]
    cases b with
    | true =>
      simp only [List.getD_eq_getElem?_getD] at ih
      simp [ih, List.count_cons]
    | false =>
      simp only [List.getD_eq_getElem?_getD] at ih
      simp [ih, List.count_cons]

theorem injCount_sum_le {inj : List Bool} {K : ℕ}
    (clusters : List (ℤ × List ℕ)) (hinj : inj.count true = K)
    (hdisj : ∀ x, ((clusters.map Prod.snd).flatten).count x ≤ 1)
    (hrange : ∀ x ∈ (clusters.map Prod.snd).flatten, x < inj.length) :
    (clusters.map (fun p => injCount inj p.2)).sum ≤ K := by
  have h1 : (clusters.map (fun p => injCount inj p.2)).sum
      = ((clusters.map Prod.snd).flatten).countP (fun i => inj.getD i false) := by
    rw [countP_flatten_sum, List.map_map]
    rfl
  rw [h1, List.countP_eq_length_filter]
  have hnodup : ((clusters.map Prod.snd).flatten).Nodup :=
    List.nodup_iff_count_le_one.mpr hdisj
  have hfn : (((clusters.map Prod.snd).flatten).filter
      (fun i => inj.getD i false)).Nodup := hnodup.filter _
  have hsub : ((clusters.map Prod.snd).flatten).filter (fun i => inj.getD i false)
      ⊆ (List.range inj.length).filter (fun i => inj.getD i false) := by
    intro x hx
    rw [List.mem_filter] at hx ⊢
    exact ⟨List.mem_range.mpr (hrange x hx.1), hx.2⟩
  calc (((clusters.map Prod.snd).flatten).filter (fun i => inj.getD i false)).length
      ≤ ((List.range inj.length).filter (fun i => inj.getD i false)).length :=
        (List.Nodup.subperm hfn hsub).length_le
    _ = K := by rw [length_filter_range_getD, hinj]

theorem qualifies_iff {inj : List Bool} {K : ℕ} (hK : K ≠ 0)
    (p : ℤ × List ℕ) :
    qualifies inj K p = true ↔ K < 2 * injCount inj p.2 := by
  have hKpos : (0 : ℚ) < (K : ℚ) := by
    exact_mod_cast Nat.pos_of_ne_zero hK
  rw [qualifies, decide_eq_true_eq, recallOf, lt_div_iff₀ hKpos]
  constructor
  · intro h
    have h2 : (K : ℚ) < 2 * (injCount inj p.2 : ℚ) := by nlinarith
    exact_mod_cast h2
  · intro h
    have h2 : (K : ℚ) < 2 * (injCount inj p.2 : ℚ) := by exact_mod_cast h
    nlinarith

theorem filter_qualifies_length {inj : List Bool} {K : ℕ}
    (clusters : List (ℤ × List ℕ)) (hinj : inj.count true = K)
    (hdisj : ∀ x, ((clusters.map Prod.snd).flatten).count x ≤ 1)
    (hrange : ∀ x ∈ (clusters.map Prod.snd).flatten, x < inj.length) :
    (clusters.filter (qualifies inj K)).length ≤ 1 := by
  by_cases hK : K = 0
  · subst hK
    have hall : ∀ p ∈ clusters, ¬(qualifies inj 0 p = true) := by
      intro p _ hq
      rw [qualifies, decide_eq_true_eq, recallOf] at hq
      norm_num at hq
    rw [List.filter_eq_nil_iff.mpr hall]
    simp
  · cases hf : clusters.filter (qualifies inj K) with
    | nil => simp
    | cons p rest =>
      cases rest with
      | nil => simp
      | cons q rest2 =>
        exfalso
        have hsubl : (p :: q :: rest2).Sublist clusters := by
          rw [← hf]; exact List.filter_sublist clusters
        have hmap : ((p :: q :: rest2).map (fun r => injCount inj r.2)).Sublist
            (clusters.map (fun r => injCount inj r.2)) := hsubl.map _
        have hsum0 := hmap.sum_le_sum (by simp)
        simp only [List.map_cons, List.sum_cons] at hsum0
        have hple := injCount_sum_le clusters hinj hdisj hrange
        have hpq : qualifies inj K p = true := by
          have hp : p ∈ clusters.filter (qualifies inj K) := by
            rw [hf]; exact List.mem_cons_self _ _
          exact (List.mem_filter.mp hp).2
        have hqq : qualifies inj K q = true := by
          have hq : q ∈ clusters.filter (qualifies inj K) := by
            rw [hf]; exact List.mem_cons_of_mem _ (List.mem_cons_self _ _)
          exact (List.mem_filter.mp hq).2
        rw [qualifies_iff hK] at hpq hqq
        omega

theorem lastQ_cons_some : ∀ (x : α) (l : List α), ∃ y, lastQ (x :: l) = some y
  | x, [] => ⟨x, rfl⟩
  | _, y :: ys => lastQ_cons_some y ys

theorem analyzeClusters_spec (inj : List Bool) (K : ℕ) (hK : K ≠ 0)
    (clusters : List (ℤ × List ℕ)) :
    ∀ acc : ℤ × ℚ × ℚ,
      (∀ p ∈ clusters, p.2 ≠ [] ∧ ∀ i ∈ p.2, i < inj.length) →
      analyzeClusters inj K clusters acc =
        some ((lastQ (clusters.filter (qualifies inj K))).elim acc
          (fun p => (p.1, recallOf inj K p, precOf inj p))) := by
  induction clusters with
  | nil => intro acc _; rfl
  | cons pr rest ih =>
    obtain ⟨cid, idxs⟩ := pr
    intro acc h
    obtain ⟨hne, hrg⟩ := h (cid, idxs) (List.mem_cons_self _ _)
    have hrest : ∀ p ∈ rest, p.2 ≠ [] ∧ ∀ i ∈ p.2, i < inj.length :=
      fun p hp => h p (List.mem_cons_of_mem _ hp)
    have hrg' : ∀ i ∈ idxs, i < inj.length := hrg
    have hflags := injFlagsOf_of_range hrg' 
    have hcnt : (idxs.map (fun i => inj.getD i false)).countP (fun b => b)
        = injCount inj idxs := by
      rw [List.countP_map]
      rfl
    have hKQ : ((K : ℕ) : ℚ) ≠ 0 := by exact_mod_cast hK
    have hlenQ : ((idxs.length : ℕ) : ℚ) ≠ 0 := by
      have hne' : idxs.length ≠ 0 := fun h0 => hne (List.length_eq_zero.mp h0)
      exact_mod_cast hne'
    rw [analyzeClusters, hflags]
    show (some (idxs.map (fun i => inj.getD i false)) >>= fun flags =>
      pyDiv (flags.countP (fun b => b) : ℚ) (K : ℚ) >>= fun rcl =>
      pyDiv (flags.countP (fun b => b) : ℚ) (idxs.length : ℚ) >>= fun prc =>
      analyzeClusters inj K rest
        (if (1 : ℚ) / 2 < rcl then (cid, rcl, prc) else acc)) = _
    rw [show (some (idxs.map (fun i => inj.getD i false)) >>= fun flags =>
      pyDiv (flags.countP (fun b => b) : ℚ) (K : ℚ) >>= fun rcl =>
      pyDiv (flags.countP (fun b => b) : ℚ) (idxs.length : ℚ) >>= fun prc =>
      analyzeClusters inj K rest
        (if (1 : ℚ) / 2 < rcl then (cid, rcl, prc) else acc)) =
      (pyDiv ((idxs.map (fun i => inj.getD i false)).countP (fun b => b) : ℚ) (K : ℚ)
        >>= fun rcl =>
      pyDiv ((idxs.map (fun i => inj.getD i false)).countP (fun b => b) : ℚ)
          (idxs.length : ℚ) >>= fun prc =>
      analyzeClusters inj K rest
        (if (1 : ℚ) / 2 < rcl then (cid, rcl, prc) else acc)) from rfl]
    rw [hcnt, pyDiv, if_neg hKQ, pyDiv, if_neg hlenQ]
    show analyzeClusters inj K rest
      (if (1 : ℚ) / 2 < (injCount inj idxs : ℚ) / (K : ℚ)
        then (cid, (injCount inj idxs : ℚ) / (K : ℚ),
          (injCount inj idxs : ℚ) / (idxs.length : ℚ))
        else acc) = _
    by_cases hq : (1 : ℚ) / 2 < (injCount inj idxs : ℚ) / (K : ℚ)
    · rw [if_pos hq, ih _ hrest]
      have hqual : qualifies inj K (cid, idxs) = true := by
        rw [qualifies, decide_eq_true_eq]
        exact hq
      rw [List.filter_cons_of_pos hqual]
      cases hrf : rest.filter (qualifies inj K) with
      | nil => rfl
      | cons q qs =>
        obtain ⟨y, hy⟩ := lastQ_cons_some q qs
        rw [show lastQ ((cid, idxs) :: q :: qs) = lastQ (q :: qs) from rfl, hy]
        rfl
    · rw [if_neg hq, ih _ hrest]
      have hqual : qualifies inj K (cid, idxs) = false := by
        rw [qualifies, decide_eq_false_iff_not]
        exact hq
      rw [List.filter_cons_of_neg (by simp [hqual])]

/-- C2: with the clustering guarantees in force (member lists disjoint
and in range, exactly `K` injected flags, `K` and the clusters nonempty),
the analysis loop of `run_injection_test` computes `recall = injected/K`
and `precision = injected/size` per cluster and reports the unique
cluster with recall above 0.5 — necessarily the one of highest recall —
or `(-1, 0, 0)` (the failure verdict) when no cluster passes the bar. -/
theorem C2_injection_report (inj : List Bool) (K : ℕ)
    (clusters : List (ℤ × List ℕ)) (hK : K ≠ 0) (hinj : inj.count true = K)
    (hflat : ((clusters.map Prod.snd).flatten).Nodup)
    (hrange : ∀ x ∈ (clusters.map Prod.snd).flatten, x < inj.length)
    (hne : ∀ p ∈ clusters, p.2 ≠ []) :
    ((∀ p ∈ clusters, qualifies inj K p = false) →
      run_injection_test inj K clusters = some (-1, 0, 0)) ∧
    (∀ p ∈ clusters, qualifies inj K p = true →
      run_injection_test inj K clusters
        = some (p.1, recallOf inj K p, precOf inj p) ∧
      (∀ q ∈ clusters, qualifies inj K q = true → q = p) ∧
      (∀ q ∈ clusters, recallOf inj K q ≤ recallOf inj K p)) := by
  have hdisj := List.nodup_iff_count_le_one.mp hflat
  have hcond : ∀ p ∈ clusters, p.2 ≠ [] ∧ ∀ i ∈ p.2, i < inj.length := by
    intro p hp
    refine ⟨hne p hp, fun i hi => hrange i ?_⟩
    exact List.mem_flatten.mpr ⟨p.2, List.mem_map_of_mem Prod.snd hp, hi⟩
  have hrun := analyzeClusters_spec inj K hK clusters (-1, 0, 0) hcond
  constructor
  · intro hall
    rw [run_injection_test, hrun, List.filter_eq_nil_iff.mpr (by
      intro p hp
      simp [hall p hp])]
    rfl
  · intro p hp hq
    have hmemf : p ∈ clusters.filter (qualifies inj K) :=
      List.mem_filter.mpr ⟨hp, hq⟩
    have hlen1 := filter_qualifies_length clusters hinj hdisj hrange
    have hfp : clusters.filter (qualifies inj K) = [p] := by
      cases hf : clusters.filter (qualifies inj K) with
      | nil => rw [hf] at hmemf; simp at hmemf
      | cons x rest =>
        rw [hf] at hlen1 hmemf
        cases rest with
        | nil => rw [List.mem_singleton.mp hmemf]
        | cons y rest2 => simp at hlen1
    refine ⟨?_, ?_, ?_⟩
    · rw [run_injection_test, hrun, hfp]; rfl
    · intro q hq2 hq3
      have hmq : q ∈ clusters.filter (qualifies inj K) :=
        List.mem_filter.mpr ⟨hq2, hq3⟩
      rw [hfp] at hmq
      exact List.mem_singleton.mp hmq
    · intro q hq2
      by_cases hq3 : qualifies inj K q = true
      · have heq : q = p := by
          have hmq : q ∈ clusters.filter (qualifies inj K) :=
            List.mem_filter.mpr ⟨hq2, hq3⟩
          rw [hfp] at hmq
          exact List.mem_singleton.mp hmq
        rw [heq]
      · simp only [qualifies, decide_eq_true_eq] at hq3 hq
        exact le_trans (le_of_not_lt hq3) (le_of_lt hq)

/-- Witness for C2 at a concrete three-message corpus with two injected
messages isolated in the first cluster. -/
theorem C2_injection_report_witness :
    ((2 : ℕ) ≠ 0) ∧
    ((∀ p ∈ [((0 : ℤ), [0, 1]), (1, [2])],
        qualifies [true, true, false] 2 p = false) →
      run_injection_test [true, true, false] 2 [((0 : ℤ), [0, 1]), (1, [2])]
        = some (-1, 0, 0)) ∧
    (∀ p ∈ [((0 : ℤ), [0, 1]), (1, [2])],
      qualifies [true, true, false] 2 p = true →
      run_injection_test [true, true, false] 2 [((0 : ℤ), [0, 1]), (1, [2])]
        = some (p.1, recallOf [true, true, false] 2 p,
            precOf [true, true, false] p) ∧
      (∀ q ∈ [((0 : ℤ), [0, 1]), (1, [2])],
        qualifies [true, true, false] 2 q = true → q = p) ∧
      (∀ q ∈ [((0 : ℤ), [0, 1]), (1, [2])],
        recallOf [true, true, false] 2 q ≤ recallOf [true, true, false] 2 p)) := by
  have h := C2_injection_report [true, true, false] 2 [((0 : ℤ), [0, 1]), (1, [2])]
    (by decide) (by decide) (by decide) (by decide) (by decide)
  exact ⟨by decide, h.1, h.2⟩

/-- C10: because the clusters are disjoint and the injected flags sum to
K, at most one cluster can have recall above 0.5 (the qualifier filter
has length at most 1), so the source's last-qualifier scan returns
exactly what the spec's highest-recall selection (`specSelect`)
prescribes, with `(-1, 0, 0)` as the failure value. -/
theorem C10_candidate_unique (inj : List Bool) (K : ℕ)
    (clusters : List (ℤ × List ℕ)) (hK : K ≠ 0) (hinj : inj.count true = K)
    (hflat : ((clusters.map Prod.snd).flatten).Nodup)
    (hrange : ∀ x ∈ (clusters.map Prod.snd).flatten, x < inj.length)
    (hne : ∀ p ∈ clusters, p.2 ≠ []) :
    (clusters.filter (qualifies inj K)).length ≤ 1 ∧
    run_injection_test inj K clusters
      = some ((specSelect inj K clusters).elim (-1, 0, 0) id) := by
  have hdisj := List.nodup_iff_count_le_one.mp hflat
  have hlen1 := filter_qualifies_length clusters hinj hdisj hrange
  have hcond : ∀ p ∈ clusters, p.2 ≠ [] ∧ ∀ i ∈ p.2, i < inj.length := by
    intro p hp
    refine ⟨hne p hp, fun i hi => hrange i ?_⟩
    exact List.mem_flatten.mpr ⟨p.2, List.mem_map_of_mem Prod.snd hp, hi⟩
  have hrun := analyzeClusters_spec inj K hK clusters (-1, 0, 0) hcond
  refine ⟨hlen1, ?_⟩
  rw [run_injection_test, hrun]
  cases hf : clusters.filter (qualifies inj K) with
  | nil => simp only [specSelect, hf]; rfl
  | cons p rest =>
    cases rest with
    | nil => simp only [specSelect, hf]; rfl
    | cons q rest2 =>
      rw [hf] at hlen1
      simp at hlen1

/-- Witness for C10 at a concrete three-message corpus. -/
theorem C10_candidate_unique_witness :
    (([((1 : ℤ), [0]), (2, [1, 2])].filter
        (qualifies [false, true, true] 2)).length ≤ 1) ∧
    run_injection_test [false, true, true] 2 [((1 : ℤ), [0]), (2, [1, 2])]
      = some ((specSelect [false, true, true] 2
          [((1 : ℤ), [0]), (2, [1, 2])]).elim (-1, 0, 0) id) :=
  C10_candidate_unique [false, true, true] 2 [((1 : ℤ), [0]), (2, [1, 2])]
    (by decide) (by decide) (by decide) (by decide) (by decide)

/-! ## Faithfulness of the rational cosine-order key -/

theorem mul_abs_le_mul_abs_iff (a b : ℝ) : a * |a| ≤ b * |b| ↔ a ≤ b := by
  have hmono : StrictMono (fun x : ℝ => x * |x|) := by
    intro x y hxy
    rcases le_or_lt 0 x with hx | hx
    · have hy : 0 < y := lt_of_le_of_lt hx hxy
      simp only []
      rw [abs_of_nonneg hx, abs_of_pos hy]
      nlinarith
    · rcases le_or_lt 0 y with hy | hy
      · simp only []
        rw [abs_of_neg hx, abs_of_nonneg hy]
        nlinarith
      · simp only []
        rw [abs_of_neg hx, abs_of_neg hy]
        nlinarith
  exact hmono.le_iff_le

/-- The rational sort key `cosKey` used by the sampler model orders
members exactly as their true (irrational) cosine distances to the
centroid do: for member vectors `u, v` and centroid `c` with nonzero
norms, `1 − u·c/(‖u‖‖c‖) ≤ 1 − v·c/(‖v‖‖c‖)` over the reals holds iff
`cosKey v c ≤ cosKey u c` over the rationals (smaller distance = larger
key). -/
theorem cosKey_faithful (u v c : List ℚ)
    (hu : 0 < normSq u) (hv : 0 < normSq v) (hc : 0 < normSq c) :
    ((1 : ℝ) - ((dotQ u c : ℚ) : ℝ)
        / (Real.sqrt ((normSq u : ℚ) : ℝ) * Real.sqrt ((normSq c : ℚ) : ℝ))
      ≤ (1 : ℝ) - ((dotQ v c : ℚ) : ℝ)
        / (Real.sqrt ((normSq v : ℚ) : ℝ) * Real.sqrt ((normSq c : ℚ) : ℝ)))
    ↔ cosKey v c ≤ cosKey u c := by
  have huR : (0 : ℝ) < ((normSq u : ℚ) : ℝ) := by exact_mod_cast hu
  have hvR : (0 : ℝ) < ((normSq v : ℚ) : ℝ) := by exact_mod_cast hv
  have hcR : (0 : ℝ) < ((normSq c : ℚ) : ℝ) := by exact_mod_cast hc
  have key_eq : ∀ (w : List ℚ), 0 < normSq w →
      ((cosKey w c : ℚ) : ℝ)
        = (((dotQ w c : ℚ) : ℝ) / (Real.sqrt ((normSq w : ℚ) : ℝ)
            * Real.sqrt ((normSq c : ℚ) : ℝ)))
          * |((dotQ w c : ℚ) : ℝ) / (Real.sqrt ((normSq w : ℚ) : ℝ)
            * Real.sqrt ((normSq c : ℚ) : ℝ))| := by
    intro w hw
    have hwR : (0 : ℝ) < ((normSq w : ℚ) : ℝ) := by exact_mod_cast hw
    have hne : normSq w * normSq c ≠ 0 := by positivity
    have hkey : cosKey w c = dotQ w c * |dotQ w c| / (normSq w * normSq c) := by
      simp only [cosKey]
      rw [if_neg hne]
    rw [hkey]
    push_cast
    have hprodpos : (0 : ℝ) < Real.sqrt ((normSq w : ℚ) : ℝ)
        * Real.sqrt ((normSq c : ℚ) : ℝ) := by
      have h1 := Real.sqrt_pos.mpr hwR
      have h2 := Real.sqrt_pos.mpr hcR
      positivity
    rw [abs_div, abs_of_pos hprodpos, div_mul_div_comm]
    congr 1
    rw [show Real.sqrt ((normSq w : ℚ) : ℝ) * Real.sqrt ((normSq c : ℚ) : ℝ)
        * (Real.sqrt ((normSq w : ℚ) : ℝ) * Real.sqrt ((normSq c : ℚ) : ℝ))
        = (Real.sqrt ((normSq w : ℚ) : ℝ) * Real.sqrt ((normSq w : ℚ) : ℝ))
          * (Real.sqrt ((normSq c : ℚ) : ℝ) * Real.sqrt ((normSq c : ℚ) : ℝ))
        from by ring]
    rw [Real.mul_self_sqrt hwR.le, Real.mul_self_sqrt hcR.le]
  rw [sub_le_sub_iff_left, ← mul_abs_le_mul_abs_iff, ← key_eq v hv, ← key_eq u hu]
  exact Rat.cast_le
